import Mathlib

set_option maxHeartbeats 1000000

/-!
Verification of the two-state, four-symbol hidden Markov model engine
(`hmm.h` / `hmm.cxx`): the scaled forward algorithm (`evaluate`), the
forward-backward posterior decoder (`posterior_decode`), the annotation
wrapper (`reconocimiento`) and the constructors.  Arithmetic is embedded
exactly over `ℚ`; the C++ `-INFINITY` outcome of `evaluate` is the `none`
branch of an `Option`; `double` division is modelled by total `ℚ`
division.  Logarithms are taken in `ℝ` on the exact scale factors.
-/

/-- Model parameters, as stored by the class `HMM` (hmm.h lines 29-33):
`A` the 2×2 transition matrix, `pi` the length-2 initial distribution,
`B` the 2×4 emission matrix. -/
structure HMMq where
  A : Fin 2 → Fin 2 → ℚ
  pi : Fin 2 → ℚ
  B : Fin 2 → Fin 4 → ℚ

/-- Raw, unvalidated parameter bundle exactly as the explicit C++
constructor (hmm.cxx lines 21-27) stores it: the three arguments are
assigned to the fields with no shape or sign checks. -/
structure RawHMM where
  A : List (List ℚ)
  pi : List ℚ
  B : List (List ℚ)

/-- The explicit constructor `HMM::HMM(A, pi, B)` (hmm.cxx lines 21-27).
The body only assigns the three members, so construction is modelled as a
fallible operation that in fact always succeeds. -/
def hmmConstruct (A0 : List (List ℚ)) (p0 : List ℚ) (B0 : List (List ℚ)) :
    Option RawHMM :=
  some { A := A0, pi := p0, B := B0 }

/-- Symbol-to-index map `HMM::sym2idx` (hmm.cxx lines 29-37): `A`,`C`,`G`,`T`
map to 0,1,2,3 and every other character falls through to the default 0. -/
def sym2idx (c : Char) : Fin 4 :=
  if c = 'A' then 0
  else if c = 'C' then 1
  else if c = 'G' then 2
  else if c = 'T' then 3
  else 0

/-- Initial raw forward vector, position 0 (hmm.cxx lines 47-49):
`raw[i] = pi[i] * B[i][obs]`. -/
def alpha0 (m : HMMq) (o : Fin 4) : Fin 2 → ℚ :=
  fun i => m.pi i * m.B i o

/-- One unnormalized forward step (hmm.cxx lines 59-63):
`raw[j] = (alpha[0]*A[0][j] + alpha[1]*A[1][j]) * B[j][obs]`. -/
def stepRaw (m : HMMq) (a : Fin 2 → ℚ) (o : Fin 4) : Fin 2 → ℚ :=
  fun j => (a 0 * m.A 0 j + a 1 * m.A 1 j) * m.B j o

/-- Sum of a two-state vector, as computed for every scale factor. -/
def sumv (a : Fin 2 → ℚ) : ℚ := a 0 + a 1

/-- Componentwise division by a scale factor (hmm.cxx lines 52, 66). -/
def normv (a : Fin 2 → ℚ) (s : ℚ) : Fin 2 → ℚ := fun i => a i / s

/-- The scaled forward loop of `evaluate` from position 1 on (hmm.cxx
lines 56-69), started from an already-normalized vector `a`.  Returns the
final normalized vector and the list of scale factors; a zero scale
factor short-circuits to `none` (the C++ early `return -INFINITY`). -/
def forwardAux (m : HMMq) (a : Fin 2 → ℚ) :
    List (Fin 4) → Option ((Fin 2 → ℚ) × List ℚ)
  | [] => some (a, [])
  | o :: rest =>
    if sumv (stepRaw m a o) = 0 then none
    else
      (forwardAux m (normv (stepRaw m a o) (sumv (stepRaw m a o))) rest).map
        (fun p => (p.1, sumv (stepRaw m a o) :: p.2))

/-- The whole scaled forward pass of `HMM::evaluate` (hmm.cxx lines 39-69):
empty input and a zero scale factor both yield `none` (`-INFINITY`);
otherwise the final normalized vector and all scale factors are returned. -/
def evaluateRun (m : HMMq) : List (Fin 4) → Option ((Fin 2 → ℚ) × List ℚ)
  | [] => none
  | o :: rest =>
    if sumv (alpha0 m o) = 0 then none
    else
      (forwardAux m (normv (alpha0 m o) (sumv (alpha0 m o))) rest).map
        (fun p => (p.1, sumv (alpha0 m o) :: p.2))

/-- The scale factors accumulated by `HMM::evaluate`; the returned double
is the sum of their natural logs (hmm.cxx lines 70-72), with `none`
standing for `-INFINITY`. -/
def evaluateScales (m : HMMq) (seq : List (Fin 4)) : Option (List ℚ) :=
  (evaluateRun m seq).map Prod.snd

/-- Sum of natural logarithms of a list of exact scale factors:
`logp += std::log(sc)` (hmm.cxx line 71). -/
noncomputable def logSum (L : List ℚ) : ℝ :=
  (L.map (fun q => Real.log (q : ℝ))).sum

/-- Modelled from the spec (§4.2 step 6): the naive unscaled total forward
probability `P(seq | model)` — the unnormalized forward recurrence run to
the end and summed over the two states, with no scaling. -/
def naiveP (m : HMMq) : List (Fin 4) → ℚ
  | [] => 0
  | o :: rest => sumv (List.foldl (stepRaw m) (alpha0 m o) rest)

/-- The forward loop inside `HMM::posterior_decode` from position 1 on
(hmm.cxx lines 89-101): identical arithmetic to `forwardAux` but with no
zero-scale test — the division happens unconditionally. -/
def pdForwardAux (m : HMMq) (a : Fin 2 → ℚ) :
    List (Fin 4) → List ((Fin 2 → ℚ) × ℚ)
  | [] => []
  | o :: rest =>
    (normv (stepRaw m a o) (sumv (stepRaw m a o)), sumv (stepRaw m a o)) ::
      pdForwardAux m (normv (stepRaw m a o) (sumv (stepRaw m a o))) rest

/-- The full forward pass inside `HMM::posterior_decode` (hmm.cxx lines
82-101): normalized vector and scale factor for every position, with no
zero-scale guard anywhere. -/
def pdForward (m : HMMq) : List (Fin 4) → List ((Fin 2 → ℚ) × ℚ)
  | [] => []
  | o :: rest =>
    (normv (alpha0 m o) (sumv (alpha0 m o)), sumv (alpha0 m o)) ::
      pdForwardAux m (normv (alpha0 m o) (sumv (alpha0 m o))) rest

/-- The `alpha` table retained by `posterior_decode`. -/
def pdAlphas (m : HMMq) (seq : List (Fin 4)) : List (Fin 2 → ℚ) :=
  (pdForward m seq).map Prod.fst

/-- The `scales` table retained by `posterior_decode`. -/
def pdScales (m : HMMq) (seq : List (Fin 4)) : List ℚ :=
  (pdForward m seq).map Prod.snd

/-- One backward step (hmm.cxx lines 106-114): given the observation and
scale factor at position t+1 and `beta[t+1]`, compute `beta[t][i] =
(Σ_j A[i][j] * B[j][obs] * beta[t+1][j]) / scales[t+1]`. -/
def betaStep (m : HMMq) (o : Fin 4) (b : Fin 2 → ℚ) (sc : ℚ) : Fin 2 → ℚ :=
  fun i => (m.A i 0 * m.B 0 o * b 0 + m.A i 1 * m.B 1 o * b 1) / sc

/-- The backward pass (hmm.cxx lines 103-116) on the list of per-position
(observation, scale) pairs: `beta[n-1] = (1,1)` and earlier positions are
built right-to-left with `betaStep` on the following position's pair. -/
def betasList (m : HMMq) : List (Fin 4 × ℚ) → List (Fin 2 → ℚ)
  | [] => []
  | [_] => [fun _ => 1]
  | _ :: p :: rest =>
    match betasList m (p :: rest) with
    | [] => []
    | b :: bs => betaStep m p.1 b p.2 :: b :: bs

/-- The `beta` table of `posterior_decode`. -/
def pdBetas (m : HMMq) (seq : List (Fin 4)) : List (Fin 2 → ℚ) :=
  betasList m (seq.zip (pdScales m seq))

/-- The posterior value `p1` of the combination step (hmm.cxx lines
119-122): `g0 = alpha[0]*beta[0]`, `g1 = alpha[1]*beta[1]`, `s = g0+g1`,
`p1 = s==0 ? 0 : g1/s`. -/
def p1val (a b : Fin 2 → ℚ) : ℚ :=
  if a 0 * b 0 + a 1 * b 1 = 0 then 0
  else a 1 * b 1 / (a 0 * b 0 + a 1 * b 1)

/-- Modelled from the spec (§4.3 step 3 and §8): the companion posterior
value `p0 = g0/s` (with the same `s == 0` fallback); the C++ code only
materializes `p1`, and `p0` is its spec-side complement. -/
def p0val (a b : Fin 2 → ℚ) : ℚ :=
  if a 0 * b 0 + a 1 * b 1 = 0 then 0
  else a 0 * b 0 / (a 0 * b 0 + a 1 * b 1)

/-- `HMM::posterior_decode` (hmm.cxx lines 75-126) on an index sequence:
forward pass, backward pass, posterior combination and thresholding
`p1 >= threshold ? 1 : 0`. -/
def posterior_decode (m : HMMq) (seq : List (Fin 4)) (threshold : ℚ) :
    List ℕ :=
  ((pdAlphas m seq).zip (pdBetas m seq)).map
    (fun p => if threshold ≤ p1val p.1 p.2 then 1 else 0)

/-- `HMM::evaluate` on a character string: each character is translated by
`sym2idx` (hmm.cxx lines 48, 58). -/
def evaluateStrScales (m : HMMq) (seq : List Char) : Option (List ℚ) :=
  evaluateScales m (seq.map sym2idx)

/-- `HMM::posterior_decode` on a character string. -/
def posterior_decodeStr (m : HMMq) (seq : List Char) (threshold : ℚ) :
    List ℕ :=
  posterior_decode m (seq.map sym2idx) threshold

/-- `HMM::reconocimiento` (hmm.cxx lines 129-136): posterior decoding at
the fixed threshold 0.5, rendered as characters `H` (state 1) / `L`. -/
def reconocimiento (m : HMMq) (seq : List Char) : List Char :=
  (posterior_decodeStr m seq (1/2)).map (fun st => if st = 1 then 'H' else 'L')

/-- The default model of `HMM::HMM()` (hmm.cxx lines 6-19). -/
def defaultHMM : HMMq where
  A := fun i j =>
    if i = 0 then (if j = 0 then 0.6 else 0.4) else 0.5
  pi := fun _ => 0.5
  B := fun i k =>
    if i = 0 then
      (if k = 0 then 0.3 else if k = 1 then 0.2 else if k = 2 then 0.2 else 0.3)
    else
      (if k = 0 then 0.2 else if k = 1 then 0.3 else if k = 2 then 0.3 else 0.2)

/-- Stochastic parameters (spec §3): non-negative entries, each transition
row, the initial vector and each emission row summing to 1. -/
def Stochastic (m : HMMq) : Prop :=
  (∀ i j, 0 ≤ m.A i j) ∧ (∀ i, m.A i 0 + m.A i 1 = 1) ∧
    (∀ i, 0 ≤ m.pi i) ∧ m.pi 0 + m.pi 1 = 1 ∧
    (∀ i k, 0 ≤ m.B i k) ∧ (∀ i, m.B i 0 + m.B i 1 + m.B i 2 + m.B i 3 = 1)

/-- The uniform model of spec §8 scenario C: all transition entries 0.5,
all emission entries 0.25, caller-supplied initial vector. -/
def uniformHMM (p : Fin 2 → ℚ) : HMMq where
  A := fun _ _ => 1/2
  pi := p
  B := fun _ _ => 1/4

/-- A stochastic model whose emission probability of symbol 0 is zero in
both states, so the sequence "A" has zero forward mass at position 0. -/
def degenerateHMM : HMMq where
  A := fun _ _ => 1/2
  pi := fun _ => 1/2
  B := fun _ k => if k = 0 then 0 else 1/3

/-- C8: on the empty sequence, for every model and threshold, `evaluate`
returns negative infinity (`none`) and `posterior_decode` returns the
empty label list. -/
theorem c8_empty_sequence (m : HMMq) (thr : ℚ) :
    evaluateScales m [] = none ∧ posterior_decode m [] thr = [] :=
  ⟨rfl, rfl⟩

/-- C3 counterexample: a thoroughly malformed parameter set (transition
1×1 with a negative entry, empty initial vector, empty emission matrix)
on which construction nevertheless succeeds, contradicting the claim that
every malformed input fails with `InvalidModel`. -/
theorem c3_counterexample :
    ([[(-1 : ℚ)]].length ≠ 2) ∧
      hmmConstruct [[(-1 : ℚ)]] [] [] =
        some { A := [[(-1 : ℚ)]], pi := [], B := [] } := by
  exact ⟨by decide, rfl⟩

/-- C3 amended: the explicit constructor performs no validation at all —
for every caller-supplied triple of matrices, well-formed or not,
construction succeeds and stores the matrices unchanged. -/
theorem c3_construct_never_fails (A0 : List (List ℚ)) (p0 : List ℚ)
    (B0 : List (List ℚ)) :
    hmmConstruct A0 p0 B0 = some { A := A0, pi := p0, B := B0 } :=
  rfl

theorem stepRaw_smul (m : HMMq) (c : ℚ) (a : Fin 2 → ℚ) (o : Fin 4) :
    stepRaw m (fun i => c * a i) o = fun j => c * stepRaw m a o j := by
  funext j
  simp only [stepRaw]
  ring

theorem foldl_stepRaw_smul (m : HMMq) (os : List (Fin 4)) :
    ∀ (a : Fin 2 → ℚ) (c : ℚ),
      List.foldl (stepRaw m) (fun i => c * a i) os =
        fun j => c * List.foldl (stepRaw m) a os j := by
  induction os with
  | nil => intro a c; rfl
  | cons o rest ih =>
    intro a c
    simp only [List.foldl_cons]
    rw [stepRaw_smul]
    exact ih (stepRaw m a o) c

theorem normv_sumv_eq_one (a : Fin 2 → ℚ) (hz : sumv a ≠ 0) :
    sumv (normv a (sumv a)) = 1 := by
  simp only [sumv, normv]
  rw [div_add_div_same]
  exact div_self hz

theorem smul_normv_self (a : Fin 2 → ℚ) (hz : sumv a ≠ 0) :
    a = fun i => sumv a * normv a (sumv a) i := by
  funext i
  rw [normv, mul_comm]
  exact (div_mul_cancel₀ _ hz).symm

theorem forwardAux_foldl (m : HMMq) (os : List (Fin 4)) :
    ∀ (a af : Fin 2 → ℚ) (L : List ℚ),
      forwardAux m a os = some (af, L) →
      (List.foldl (stepRaw m) a os = fun j => L.prod * af j) ∧
        (sumv af = 1 ∨ af = a) := by
  induction os with
  | nil =>
    intro a af L h
    simp only [forwardAux, Option.some.injEq, Prod.mk.injEq] at h
    obtain ⟨h1, h2⟩ := h
    subst h1
    subst h2
    refine ⟨?_, Or.inr rfl⟩
    funext j
    simp
  | cons o rest ih =>
    intro a af L h
    simp only [forwardAux] at h
    by_cases hz : sumv (stepRaw m a o) = 0
    · rw [if_pos hz] at h
      exact absurd h (by simp)
    · rw [if_neg hz] at h
      obtain ⟨p, hp, heq⟩ := Option.map_eq_some'.mp h
      obtain ⟨haf, hL⟩ := Prod.mk.injEq .. ▸ heq
      have hrec := ih (normv (stepRaw m a o) (sumv (stepRaw m a o))) p.1 p.2 hp
      constructor
      · rw [List.foldl_cons]
        rw [smul_normv_self (stepRaw m a o) hz]
        rw [foldl_stepRaw_smul]
        funext j
        rw [hrec.1]
        subst hL
        subst haf
        simp only [List.prod_cons]
        ring
      · left
        subst haf
        rcases hrec.2 with h1 | h1
        · exact h1
        · rw [h1]
          exact normv_sumv_eq_one (stepRaw m a o) hz

theorem evaluateRun_prod (m : HMMq) (seq : List (Fin 4)) (af : Fin 2 → ℚ)
    (L : List ℚ) (h : evaluateRun m seq = some (af, L)) :
    naiveP m seq = L.prod := by
  cases seq with
  | nil => exact absurd h (by simp [evaluateRun])
  | cons o rest =>
    simp only [evaluateRun] at h
    by_cases hz : sumv (alpha0 m o) = 0
    · rw [if_pos hz] at h
      exact absurd h (by simp)
    · rw [if_neg hz] at h
      obtain ⟨p, hp, heq⟩ := Option.map_eq_some'.mp h
      obtain ⟨haf, hL⟩ := Prod.mk.injEq .. ▸ heq
      have hrec := forwardAux_foldl m rest
        (normv (alpha0 m o) (sumv (alpha0 m o))) p.1 p.2 hp
      have hone : sumv p.1 = 1 := by
        rcases hrec.2 with h1 | h1
        · exact h1
        · rw [h1]
          exact normv_sumv_eq_one (alpha0 m o) hz
      have e1 : List.foldl (stepRaw m) (alpha0 m o) rest =
          List.foldl (stepRaw m)
            (fun i => sumv (alpha0 m o) *
              normv (alpha0 m o) (sumv (alpha0 m o)) i) rest := by
        rw [← smul_normv_self (alpha0 m o) hz]
      have e2 := foldl_stepRaw_smul m rest
        (normv (alpha0 m o) (sumv (alpha0 m o))) (sumv (alpha0 m o))
      subst hL
      simp only [naiveP]
      rw [e1, e2]
      simp only [sumv] at hone
      simp only [hrec.1]
      simp only [sumv, List.prod_cons]
      linear_combination ((alpha0 m o 0 + alpha0 m o 1) * p.2.prod) * hone

theorem stochastic_B_bounds (m : HMMq) (hm : Stochastic m) (j : Fin 2)
    (o : Fin 4) : 0 ≤ m.B j o ∧ m.B j o ≤ 1 := by
  obtain ⟨-, -, -, -, hB0, hB1⟩ := hm
  refine ⟨hB0 j o, ?_⟩
  have h0 := hB0 j 0
  have h1 := hB0 j 1
  have h2 := hB0 j 2
  have h3 := hB0 j 3
  have hs := hB1 j
  fin_cases o
  · show m.B j 0 ≤ 1
    linarith
  · show m.B j 1 ≤ 1
    linarith
  · show m.B j 2 ≤ 1
    linarith
  · show m.B j 3 ≤ 1
    linarith

theorem stepRaw_nonneg (m : HMMq) (hm : Stochastic m) (a : Fin 2 → ℚ)
    (ha : ∀ i, 0 ≤ a i) (o : Fin 4) (j : Fin 2) : 0 ≤ stepRaw m a o j := by
  obtain ⟨hA0, -, -, -, hB0, -⟩ := hm
  exact mul_nonneg
    (add_nonneg (mul_nonneg (ha 0) (hA0 0 j)) (mul_nonneg (ha 1) (hA0 1 j)))
    (hB0 j o)

theorem stepRaw_sum_le_one (m : HMMq) (hm : Stochastic m) (a : Fin 2 → ℚ)
    (ha : ∀ i, 0 ≤ a i) (hs : sumv a = 1) (o : Fin 4) :
    sumv (stepRaw m a o) ≤ 1 := by
  have hb0 := stochastic_B_bounds m hm 0 o
  have hb1 := stochastic_B_bounds m hm 1 o
  obtain ⟨hA0, hA1, -, -, -, -⟩ := hm
  have hi0 : 0 ≤ a 0 * m.A 0 0 + a 1 * m.A 1 0 :=
    add_nonneg (mul_nonneg (ha 0) (hA0 0 0)) (mul_nonneg (ha 1) (hA0 1 0))
  have hi1 : 0 ≤ a 0 * m.A 0 1 + a 1 * m.A 1 1 :=
    add_nonneg (mul_nonneg (ha 0) (hA0 0 1)) (mul_nonneg (ha 1) (hA0 1 1))
  have hle0 : (a 0 * m.A 0 0 + a 1 * m.A 1 0) * m.B 0 o ≤
      a 0 * m.A 0 0 + a 1 * m.A 1 0 := mul_le_of_le_one_right hi0 hb0.2
  have hle1 : (a 0 * m.A 0 1 + a 1 * m.A 1 1) * m.B 1 o ≤
      a 0 * m.A 0 1 + a 1 * m.A 1 1 := mul_le_of_le_one_right hi1 hb1.2
  have hrow0 := hA1 0
  have hrow1 := hA1 1
  simp only [sumv] at hs
  simp only [sumv, stepRaw]
  nlinarith [hrow0, hrow1, hs, ha 0, ha 1]

theorem forwardAux_scales (m : HMMq) (hm : Stochastic m) (os : List (Fin 4)) :
    ∀ (a af : Fin 2 → ℚ) (L : List ℚ), (∀ i, 0 ≤ a i) → sumv a = 1 →
      forwardAux m a os = some (af, L) →
      ∀ x ∈ L, 0 < x ∧ x ≤ 1 := by
  induction os with
  | nil =>
    intro a af L ha hs h
    simp only [forwardAux, Option.some.injEq, Prod.mk.injEq] at h
    rw [← h.2]
    intro x hx
    exact absurd hx (List.not_mem_nil x)
  | cons o rest ih =>
    intro a af L ha hs h
    simp only [forwardAux] at h
    by_cases hz : sumv (stepRaw m a o) = 0
    · rw [if_pos hz] at h
      exact absurd h (by simp)
    · rw [if_neg hz] at h
      obtain ⟨p, hp, heq⟩ := Option.map_eq_some'.mp h
      obtain ⟨haf, hL⟩ := Prod.mk.injEq .. ▸ heq
      have hnn : ∀ j, 0 ≤ stepRaw m a o j := stepRaw_nonneg m hm a ha o
      have hpos : 0 < sumv (stepRaw m a o) :=
        lt_of_le_of_ne (add_nonneg (hnn 0) (hnn 1)) (Ne.symm hz)
      have hle : sumv (stepRaw m a o) ≤ 1 := stepRaw_sum_le_one m hm a ha hs o
      have ha2 : ∀ i, 0 ≤ normv (stepRaw m a o) (sumv (stepRaw m a o)) i :=
        fun i => div_nonneg (hnn i) (le_of_lt hpos)
      have hrec := ih _ p.1 p.2 ha2
        (normv_sumv_eq_one (stepRaw m a o) hz) hp
      intro x hx
      rw [← hL] at hx
      rcases List.mem_cons.mp hx with h1 | h1
      · rw [h1]
        exact ⟨hpos, hle⟩
      · exact hrec x h1

theorem evaluateRun_scales (m : HMMq) (hm : Stochastic m)
    (seq : List (Fin 4)) (af : Fin 2 → ℚ) (L : List ℚ)
    (h : evaluateRun m seq = some (af, L)) :
    ∀ x ∈ L, 0 < x ∧ x ≤ 1 := by
  cases seq with
  | nil => exact absurd h (by simp [evaluateRun])
  | cons o rest =>
    simp only [evaluateRun] at h
    by_cases hz : sumv (alpha0 m o) = 0
    · rw [if_pos hz] at h
      exact absurd h (by simp)
    · rw [if_neg hz] at h
      obtain ⟨p, hp, heq⟩ := Option.map_eq_some'.mp h
      obtain ⟨haf, hL⟩ := Prod.mk.injEq .. ▸ heq
      have hnn : ∀ i, 0 ≤ alpha0 m o i := by
        obtain ⟨-, -, hpi, -, hB0, -⟩ := hm
        exact fun i => mul_nonneg (hpi i) (hB0 i o)
      have hpos : 0 < sumv (alpha0 m o) :=
        lt_of_le_of_ne (add_nonneg (hnn 0) (hnn 1)) (Ne.symm hz)
      have hle : sumv (alpha0 m o) ≤ 1 := by
        have hb0 := stochastic_B_bounds m hm 0 o
        have hb1 := stochastic_B_bounds m hm 1 o
        obtain ⟨-, -, hpi, hpisum, -, -⟩ := hm
        have h0 : m.pi 0 * m.B 0 o ≤ m.pi 0 :=
          mul_le_of_le_one_right (hpi 0) hb0.2
        have h1 : m.pi 1 * m.B 1 o ≤ m.pi 1 :=
          mul_le_of_le_one_right (hpi 1) hb1.2
        simp only [sumv, alpha0]
        linarith
      have ha2 : ∀ i, 0 ≤ normv (alpha0 m o) (sumv (alpha0 m o)) i :=
        fun i => div_nonneg (hnn i) (le_of_lt hpos)
      have hrec := forwardAux_scales m hm rest _ p.1 p.2 ha2
        (normv_sumv_eq_one (alpha0 m o) hz) hp
      intro x hx
      rw [← hL] at hx
      rcases List.mem_cons.mp hx with h1 | h1
      · rw [h1]
        exact ⟨hpos, hle⟩
      · exact hrec x h1

theorem logSum_cons (a : ℚ) (tl : List ℚ) :
    logSum (a :: tl) = Real.log (a : ℝ) + logSum tl := by
  simp [logSum]

theorem logSum_eq_log_prod (L : List ℚ) (h : ∀ x ∈ L, (0 : ℚ) < x) :
    logSum L = Real.log ((L.prod : ℚ) : ℝ) := by
  induction L with
  | nil => simp [logSum]
  | cons a tl ih =>
    have ha : (0 : ℚ) < a := h a (List.mem_cons_self a tl)
    have htl : ∀ x ∈ tl, (0 : ℚ) < x :=
      fun x hx => h x (List.mem_cons_of_mem a hx)
    have hprod : (0 : ℚ) < tl.prod := List.prod_pos htl
    rw [logSum_cons, ih htl, List.prod_cons, Rat.cast_mul,
      Real.log_mul (Rat.cast_ne_zero.mpr ha.ne')
        (Rat.cast_ne_zero.mpr hprod.ne')]

theorem logSum_nonpos (L : List ℚ) (h : ∀ x ∈ L, 0 < x ∧ x ≤ 1) :
    logSum L ≤ 0 := by
  induction L with
  | nil => simp [logSum]
  | cons a tl ih =>
    obtain ⟨h0, h1⟩ := h a (List.mem_cons_self a tl)
    have hl : Real.log (a : ℝ) ≤ 0 :=
      Real.log_nonpos (by exact_mod_cast h0.le) (by exact_mod_cast h1)
    have ht := ih (fun x hx => h x (List.mem_cons_of_mem a hx))
    rw [logSum_cons]
    linarith

/-- C1: for every stochastic model and every sequence on which the scaled
forward pass completes (non-empty, no zero scale factor), the sum of the
natural logs of the scale factors equals the natural log of the naive
unscaled total forward probability. -/
theorem c1_evaluate_matches_naive_log (m : HMMq) (seq : List (Fin 4))
    (L : List ℚ) (hm : Stochastic m) (h : evaluateScales m seq = some L) :
    logSum L = Real.log ((naiveP m seq : ℚ) : ℝ) := by
  obtain ⟨p, hp, rfl⟩ := Option.map_eq_some'.mp h
  have hprod : naiveP m seq = p.2.prod :=
    evaluateRun_prod m seq p.1 p.2 hp
  have hposL : ∀ x ∈ p.2, (0 : ℚ) < x :=
    fun x hx => (evaluateRun_scales m hm seq p.1 p.2 hp x hx).1
  rw [logSum_eq_log_prod _ hposL, hprod]

theorem defaultHMM_stochastic : Stochastic defaultHMM := by
  unfold Stochastic
  refine ⟨?_, ?_, ?_, ?_, ?_, ?_⟩ <;>
    (try simp only [Fin.forall_fin_two, Fin.forall_fin_succ]) <;>
    simp +decide [defaultHMM] <;>
    norm_num

theorem evaluateScales_defaultHMM_A : evaluateScales defaultHMM [0] = some [1/4] := by
  norm_num [evaluateScales, evaluateRun, forwardAux, alpha0, sumv, normv,
    defaultHMM]

/-- C1 witness: the default model is stochastic and on the one-symbol
sequence `A` the scaled forward pass produces the scale list `[1/4]`,
whose log-sum equals the log of the naive forward probability. -/
theorem c1_witness :
    Stochastic defaultHMM ∧ evaluateScales defaultHMM [0] = some [1/4] ∧
      logSum [1/4] = Real.log ((naiveP defaultHMM [0] : ℚ) : ℝ) :=
  ⟨defaultHMM_stochastic, evaluateScales_defaultHMM_A,
    c1_evaluate_matches_naive_log defaultHMM [0] [1/4] defaultHMM_stochastic
      evaluateScales_defaultHMM_A⟩

theorem uniform_forwardAux (p : Fin 2 → ℚ) (os : List (Fin 4)) :
    ∀ a : Fin 2 → ℚ, sumv a = 1 →
      ∃ af, forwardAux (uniformHMM p) a os =
          some (af, List.replicate os.length (1/4)) ∧ sumv af = 1 := by
  induction os with
  | nil =>
    intro a ha
    exact ⟨a, rfl, ha⟩
  | cons o rest ih =>
    intro a ha
    have hst : sumv (stepRaw (uniformHMM p) a o) = 1/4 := by
      simp only [sumv, stepRaw, uniformHMM] at ha ⊢
      linarith
    have hnz : sumv (stepRaw (uniformHMM p) a o) ≠ 0 := by
      rw [hst]
      norm_num
    obtain ⟨af, haf, hsaf⟩ := ih _ (normv_sumv_eq_one _ hnz)
    refine ⟨af, ?_, hsaf⟩
    simp only [forwardAux]
    rw [if_neg hnz, haf]
    simp [hst, List.replicate_succ]

theorem uniform_evaluate (p : Fin 2 → ℚ) (hp : p 0 + p 1 = 1)
    (seq : List (Fin 4)) (hs : seq ≠ []) :
    evaluateScales (uniformHMM p) seq =
      some (List.replicate seq.length (1/4)) := by
  cases seq with
  | nil => exact absurd rfl hs
  | cons o rest =>
    have hs0 : sumv (alpha0 (uniformHMM p) o) = 1/4 := by
      simp only [sumv, alpha0, uniformHMM]
      linarith
    have hnz : sumv (alpha0 (uniformHMM p) o) ≠ 0 := by
      rw [hs0]
      norm_num
    obtain ⟨af, haf, -⟩ := uniform_forwardAux p rest _ (normv_sumv_eq_one _ hnz)
    simp only [evaluateScales, evaluateRun]
    rw [if_neg hnz, haf]
    simp [hs0, List.replicate_succ]

theorem logSum_replicate (n : ℕ) (q : ℚ) :
    logSum (List.replicate n q) = (n : ℝ) * Real.log (q : ℝ) := by
  induction n with
  | zero => simp [logSum]
  | succ k ih =>
    rw [List.replicate_succ, logSum_cons, ih]
    push_cast
    ring

/-- C4 counterexample: the uniform model (transition rows [0.5,0.5],
emission rows all 0.25, initial [0.5,0.5]) on the one-symbol sequence
produces the scale list [1/4], and its log-sum ln(1/4) differs from the
claimed value 1 * ln(0.5). -/
theorem c4_counterexample :
    evaluateScales (uniformHMM (fun _ => 1/2)) [0] = some [1/4] ∧
      logSum [(1/4 : ℚ)] ≠ (1 : ℝ) * Real.log (1/2) := by
  constructor
  · norm_num [evaluateScales, evaluateRun, forwardAux, alpha0, sumv, normv,
      uniformHMM]
  · have h1 : logSum [(1/4 : ℚ)] = Real.log ((1 : ℝ)/4) := by
      rw [logSum_cons]
      norm_num [logSum]
    have h2 : Real.log ((1 : ℝ)/4) < Real.log ((1 : ℝ)/2) :=
      Real.log_lt_log (by norm_num) (by norm_num)
    rw [h1, one_mul]
    exact ne_of_lt h2

/-- C4 amended: for the uniform model (transition rows [0.5,0.5], emission
rows all [0.25,0.25,0.25,0.25]) with any initial vector summing to 1, on
every non-empty sequence each position's scale factor reduces to 0.25
regardless of the symbol, so evaluate returns exactly n * ln(0.25)
(equivalently 2n * ln(0.5)), not n * ln(0.5). -/
theorem c4_uniform_model (p : Fin 2 → ℚ) (hp : p 0 + p 1 = 1)
    (seq : List (Fin 4)) (hs : seq ≠ []) :
    evaluateScales (uniformHMM p) seq =
        some (List.replicate seq.length (1/4)) ∧
      logSum (List.replicate seq.length (1/4)) =
        (seq.length : ℝ) * Real.log ((1/4 : ℚ) : ℝ) :=
  ⟨uniform_evaluate p hp seq hs, logSum_replicate seq.length (1/4)⟩

/-- C4 witness: the amended statement applied to the uniform model with
initial vector [1/2, 1/2] and the one-symbol sequence `G`. -/
theorem c4_witness :
    ((fun _ => (1/2 : ℚ)) (0 : Fin 2) + (fun _ => (1/2 : ℚ)) 1 = 1) ∧
      evaluateScales (uniformHMM (fun _ => 1/2)) [2] =
          some (List.replicate ([2] : List (Fin 4)).length (1/4)) ∧
        logSum (List.replicate ([2] : List (Fin 4)).length (1/4)) =
          ((([2] : List (Fin 4)).length : ℕ) : ℝ) * Real.log ((1/4 : ℚ) : ℝ) :=
  ⟨by norm_num, c4_uniform_model (fun _ => 1/2) (by norm_num) [2] (by simp)⟩

/-- C6: for every stochastic model and non-empty sequence, evaluate
returns negative infinity (`none`) or a log-probability that is ≤ 0,
because every completed scale factor lies in (0, 1]. -/
theorem c6_evaluate_nonpos (m : HMMq) (seq : List (Fin 4))
    (hm : Stochastic m) (hs : seq ≠ []) :
    evaluateScales m seq = none ∨
      ∃ L, evaluateScales m seq = some L ∧ logSum L ≤ 0 := by
  cases h : evaluateRun m seq with
  | none =>
    left
    simp [evaluateScales, h]
  | some p =>
    right
    refine ⟨p.2, by simp [evaluateScales, h], ?_⟩
    exact logSum_nonpos p.2 (evaluateRun_scales m hm seq p.1 p.2 (by rw [h]))

/-- C6 witness: the default stochastic model on the one-symbol sequence. -/
theorem c6_witness :
    evaluateScales defaultHMM [0] = none ∨
      ∃ L, evaluateScales defaultHMM [0] = some L ∧ logSum L ≤ 0 :=
  c6_evaluate_nonpos defaultHMM [0] defaultHMM_stochastic (by simp)

theorem forwardAux_none_iff (m : HMMq) (os : List (Fin 4)) :
    ∀ a : Fin 2 → ℚ,
      (forwardAux m a os = none ↔
        (0 : ℚ) ∈ (pdForwardAux m a os).map Prod.snd) := by
  induction os with
  | nil =>
    intro a
    simp [forwardAux, pdForwardAux]
  | cons o rest ih =>
    intro a
    simp only [forwardAux, pdForwardAux, List.map_cons, List.mem_cons]
    by_cases hz : sumv (stepRaw m a o) = 0
    · rw [if_pos hz]
      simp [hz]
    · rw [if_neg hz]
      constructor
      · intro h
        right
        rw [← ih]
        exact Option.map_eq_none'.mp h
      · intro h
        rcases h with h | h
        · exact absurd h.symm hz
        · rw [Option.map_eq_none', ih]
          exact h

/-- C5: for every non-empty sequence, `evaluate` returns negative infinity
(`none`) exactly when the total forward mass (scale factor) at some
position is zero — position 0 or any later position — and this zero-mass
case is a defined outcome of the total function, not an exception. -/
theorem c5_zero_scale_infinity (m : HMMq) (seq : List (Fin 4))
    (hs : seq ≠ []) :
    evaluateScales m seq = none ↔ (0 : ℚ) ∈ pdScales m seq := by
  cases seq with
  | nil => exact absurd rfl hs
  | cons o rest =>
    simp only [evaluateScales, evaluateRun, pdScales, pdForward,
      List.map_cons, List.mem_cons]
    by_cases hz : sumv (alpha0 m o) = 0
    · rw [if_pos hz]
      simp [hz]
    · rw [if_neg hz]
      constructor
      · intro h
        right
        rw [← forwardAux_none_iff]
        exact Option.map_eq_none'.mp (Option.map_eq_none'.mp h)
      · intro h
        rcases h with h | h
        · exact absurd h.symm hz
        · rw [Option.map_eq_none', Option.map_eq_none',
            forwardAux_none_iff]
          exact h

/-- C5 witness: the iff applied to the default model and the one-symbol
sequence `A` (whose forward mass is nonzero, so both sides are false). -/
theorem c5_witness :
    evaluateScales defaultHMM [0] = none ↔
      (0 : ℚ) ∈ pdScales defaultHMM [0] :=
  c5_zero_scale_infinity defaultHMM [0] (by simp)

/-- The `alpha` vector used by the combination step at position t. -/
def pdAlphaAt (m : HMMq) (seq : List (Fin 4)) (t : ℕ) : Fin 2 → ℚ :=
  (pdAlphas m seq).getD t (fun _ => 0)

/-- The `beta` vector used by the combination step at position t. -/
def pdBetaAt (m : HMMq) (seq : List (Fin 4)) (t : ℕ) : Fin 2 → ℚ :=
  (pdBetas m seq).getD t (fun _ => 0)

theorem p0val_p1val (a b : Fin 2 → ℚ) :
    (a 0 * b 0 + a 1 * b 1 ≠ 0 → p0val a b + p1val a b = 1) ∧
      (a 0 * b 0 + a 1 * b 1 = 0 → p0val a b = 0 ∧ p1val a b = 0) := by
  constructor
  · intro h
    simp only [p0val, p1val, if_neg h]
    rw [div_add_div_same]
    exact div_self h
  · intro h
    simp [p0val, p1val, if_pos h]

/-- C7: at every position t of every sequence, the two posterior values
`p0 = g0/s` and `p1 = g1/s` of the combination step sum exactly to 1 when
`s = g0 + g1` is nonzero, and are both 0 in the degenerate zero-mass case
`s = 0`. -/
theorem c7_posteriors_sum_to_one (m : HMMq) (seq : List (Fin 4)) (t : ℕ)
    (ht : t < seq.length) :
    (pdAlphaAt m seq t 0 * pdBetaAt m seq t 0 +
        pdAlphaAt m seq t 1 * pdBetaAt m seq t 1 ≠ 0 →
      p0val (pdAlphaAt m seq t) (pdBetaAt m seq t) +
        p1val (pdAlphaAt m seq t) (pdBetaAt m seq t) = 1) ∧
      (pdAlphaAt m seq t 0 * pdBetaAt m seq t 0 +
          pdAlphaAt m seq t 1 * pdBetaAt m seq t 1 = 0 →
        p0val (pdAlphaAt m seq t) (pdBetaAt m seq t) = 0 ∧
          p1val (pdAlphaAt m seq t) (pdBetaAt m seq t) = 0) :=
  p0val_p1val (pdAlphaAt m seq t) (pdBetaAt m seq t)

/-- C7 witness: the combination-step identity at position 0 of the
one-symbol sequence `A` under the default model. -/
theorem c7_witness :
    (pdAlphaAt defaultHMM [0] 0 0 * pdBetaAt defaultHMM [0] 0 0 +
        pdAlphaAt defaultHMM [0] 0 1 * pdBetaAt defaultHMM [0] 0 1 ≠ 0 →
      p0val (pdAlphaAt defaultHMM [0] 0) (pdBetaAt defaultHMM [0] 0) +
        p1val (pdAlphaAt defaultHMM [0] 0) (pdBetaAt defaultHMM [0] 0) = 1) ∧
      (pdAlphaAt defaultHMM [0] 0 0 * pdBetaAt defaultHMM [0] 0 0 +
          pdAlphaAt defaultHMM [0] 0 1 * pdBetaAt defaultHMM [0] 0 1 = 0 →
        p0val (pdAlphaAt defaultHMM [0] 0) (pdBetaAt defaultHMM [0] 0) = 0 ∧
          p1val (pdAlphaAt defaultHMM [0] 0) (pdBetaAt defaultHMM [0] 0) = 0) :=
  c7_posteriors_sum_to_one defaultHMM [0] 0 (by simp)

/-- C2 (code-bug evidence): on a model whose emission probability of
symbol `A` is zero in both states, `evaluate` handles the zero scale
factor at position 0 by short-circuiting to negative infinity (`none`),
while the internal forward pass of `posterior_decode` has no zero-scale
guard: it records the zero scale factor, divides by it, and the decode
runs to completion and emits a label — it does not handle the zero scale
factor as `evaluate` does. -/
theorem c2_zero_scale_divergence :
    evaluateScales degenerateHMM [0] = none ∧
      pdScales degenerateHMM [0] = [0] ∧
      posterior_decode degenerateHMM [0] (1/2) = [0] := by
  refine ⟨?_, ?_, ?_⟩
  · norm_num [evaluateScales, evaluateRun, alpha0, sumv, degenerateHMM]
  · norm_num [pdScales, pdForward, pdForwardAux, alpha0, sumv, normv,
      degenerateHMM]
  · norm_num [posterior_decode, pdAlphas, pdBetas, pdScales, pdForward,
      pdForwardAux, betasList, alpha0, sumv, normv, p1val, degenerateHMM]

/-- Spec-side normalization of a sequence: every symbol outside the
alphabet `{A, C, G, T}` replaced by `A`. -/
def alphabetNormalize (seq : List Char) : List Char :=
  seq.map (fun c => if c = 'A' ∨ c = 'C' ∨ c = 'G' ∨ c = 'T' then c else 'A')

theorem sym2idx_normalize (c : Char) :
    sym2idx (if c = 'A' ∨ c = 'C' ∨ c = 'G' ∨ c = 'T' then c else 'A') =
      sym2idx c := by
  by_cases h : c = 'A' ∨ c = 'C' ∨ c = 'G' ∨ c = 'T'
  · rw [if_pos h]
  · rw [if_neg h]
    push_neg at h
    obtain ⟨h1, h2, h3, h4⟩ := h
    simp [sym2idx, h1, h2, h3, h4]

/-- C9: every symbol outside `{A, C, G, T}` maps to emission index 0 (the
index of `A`) with no error, and `evaluate` and `posterior_decode` on any
sequence coincide with their results on the sequence in which every
unknown symbol is replaced by `A`. -/
theorem c9_unknown_symbol (m : HMMq) (seq : List Char) (thr : ℚ) :
    (∀ c : Char, c ≠ 'A' → c ≠ 'C' → c ≠ 'G' → c ≠ 'T' → sym2idx c = 0) ∧
      evaluateStrScales m seq = evaluateStrScales m (alphabetNormalize seq) ∧
      posterior_decodeStr m seq thr =
        posterior_decodeStr m (alphabetNormalize seq) thr := by
  have hmap : (alphabetNormalize seq).map sym2idx = seq.map sym2idx := by
    rw [alphabetNormalize, List.map_map]
    have hfun : (sym2idx ∘ fun c =>
        if c = 'A' ∨ c = 'C' ∨ c = 'G' ∨ c = 'T' then c else 'A') =
          sym2idx := by
      funext c
      exact sym2idx_normalize c
    rw [hfun]
  refine ⟨?_, ?_, ?_⟩
  · intro c h1 h2 h3 h4
    simp [sym2idx, h1, h2, h3, h4]
  · rw [evaluateStrScales, evaluateStrScales, hmap]
  · rw [posterior_decodeStr, posterior_decodeStr, hmap]

/-- C9 witness: the unknown symbol `X` maps to index 0 and evaluation of
the sequence `X` agrees with evaluation of its normalization. -/
theorem c9_witness :
    sym2idx 'X' = 0 ∧
      evaluateStrScales defaultHMM ['X'] =
        evaluateStrScales defaultHMM (alphabetNormalize ['X']) :=
  ⟨(c9_unknown_symbol defaultHMM ['X'] 0).1 'X' (by decide) (by decide)
      (by decide) (by decide),
    (c9_unknown_symbol defaultHMM ['X'] 0).2.1⟩

theorem pdForwardAux_length (m : HMMq) (os : List (Fin 4)) :
    ∀ a, (pdForwardAux m a os).length = os.length := by
  induction os with
  | nil => intro a; rfl
  | cons o rest ih =>
    intro a
    simp only [pdForwardAux, List.length_cons, ih]

theorem pdForward_length (m : HMMq) (seq : List (Fin 4)) :
    (pdForward m seq).length = seq.length := by
  cases seq with
  | nil => rfl
  | cons o rest =>
    simp only [pdForward, List.length_cons, pdForwardAux_length]

theorem pdScales_length (m : HMMq) (seq : List (Fin 4)) :
    (pdScales m seq).length = seq.length := by
  rw [pdScales, List.length_map, pdForward_length]

theorem betasList_length (m : HMMq) (ps : List (Fin 4 × ℚ)) :
    (betasList m ps).length = ps.length := by
  induction ps with
  | nil => rfl
  | cons p rest ih =>
    cases rest with
    | nil => rfl
    | cons q rest2 =>
      cases hb : betasList m (q :: rest2) with
      | nil =>
        rw [hb] at ih
        simp at ih
      | cons b bs =>
        have hstep : betasList m (p :: q :: rest2) =
            betaStep m q.1 b q.2 :: b :: bs := by
          simp only [betasList]
          rw [hb]
        rw [hb] at ih
        rw [hstep]
        simp only [List.length_cons] at ih ⊢
        omega

theorem pdBetas_length (m : HMMq) (seq : List (Fin 4)) :
    (pdBetas m seq).length = seq.length := by
  rw [pdBetas, betasList_length, List.length_zip, pdScales_length,
    Nat.min_self]

theorem posterior_decode_length (m : HMMq) (seq : List (Fin 4)) (thr : ℚ) :
    (posterior_decode m seq thr).length = seq.length := by
  rw [posterior_decode, List.length_map, List.length_zip, pdAlphas,
    List.length_map, pdForward_length, pdBetas_length, Nat.min_self]

/-- C10: the annotation wrapper `reconocimiento` returns one character
per input position, obtained from the posterior decoding at the
hard-coded threshold 0.5: `H` where the label is 1 and `L` otherwise. -/
theorem c10_reconocimiento (m : HMMq) (seq : List Char) :
    (reconocimiento m seq).length = seq.length ∧
      ∀ t, t < seq.length →
        (reconocimiento m seq).getD t 'L' =
          (if (posterior_decodeStr m seq (1/2)).getD t 0 = 1 then 'H'
            else 'L') := by
  have hlen : (posterior_decodeStr m seq (1/2)).length = seq.length := by
    rw [posterior_decodeStr, posterior_decode_length, List.length_map]
  constructor
  · rw [reconocimiento, List.length_map, hlen]
  · intro t ht
    have ht2 : t < (posterior_decodeStr m seq (1/2)).length := by
      rw [hlen]
      exact ht
    rw [reconocimiento, List.getD_eq_getElem?_getD, List.getElem?_map,
      List.getD_eq_getElem?_getD, List.getElem?_eq_getElem ht2]
    simp

/-- C10 witness: the annotation of the one-character sequence `A` under
the default model has length 1 and its character at position 0 is
determined by the posterior label at threshold 0.5. -/
theorem c10_witness :
    (reconocimiento defaultHMM ['A']).length = (['A'] : List Char).length ∧
      (reconocimiento defaultHMM ['A']).getD 0 'L' =
        (if (posterior_decodeStr defaultHMM ['A'] (1/2)).getD 0 0 = 1
          then 'H' else 'L') :=
  ⟨(c10_reconocimiento defaultHMM ['A']).1,
    (c10_reconocimiento defaultHMM ['A']).2 0 (by simp)⟩
